import Mathlib

/-!
Verification development for the TeraLaunch file-synchronization engine
(`src/teralaunch/src-tauri/src/file_handler.rs`).

The Rust code is shallowly embedded as executable Lean functions:

* the filesystem, the network and the streaming digest are explicit
  parameters (functions from paths/urls to optional data), so the pure
  decision logic of the Rust functions becomes a pure Lean function;
* `SystemTime` values are modelled as `Nat`; byte contents as `List Nat`;
* the real-time throttle of progress emission (`elapsed() >= 100ms`) is
  modelled by an arbitrary boolean oracle over chunk indices, so theorems
  quantify over every possible firing pattern of the timer;
* floating-point payload fields (`progress`, `speed`, `elapsed_time`) are
  omitted from the event model; the integer fields are kept exactly.
-/

set_option linter.unusedVariables false

/-- Server manifest entry, mirroring `struct FileInfo` in `file_handler.rs`. -/
structure FileInfo where
  path : String
  hash : String
  size : Nat
  url : String
deriving DecidableEq

/-- Cache record, mirroring `struct CachedFileInfo` (`SystemTime` as `Nat`). -/
structure CachedFileInfo where
  hash : String
  last_modified : Nat
deriving DecidableEq

/-- Result of `fs::metadata`: file length and the (possibly unavailable)
modification time, mirroring `metadata.len()` and `metadata.modified().ok()`. -/
structure FSMeta where
  len : Nat
  modified : Option Nat
deriving DecidableEq

/-- Abstract local filesystem as seen by `get_files_to_update`:
`present` is `Path::exists`, `metadata` is `fs::metadata` (with `none` for an
I/O error), `hashOf` is `calculate_file_hash` on the local file (`none` when
hashing fails). -/
structure DiffFS where
  present : String → Bool
  metadata : String → Option FSMeta
  hashOf : String → Option String

/-- The in-memory hash cache: relative path to cached record. -/
def Cache : Type := String → Option CachedFileInfo

/-- Outcome of processing one server entry inside `get_files_to_update`:
whether it was returned as required, the (possibly updated) cache value for
its path, whether `calculate_file_hash` was invoked, and the amount added to
`total_update_size`. -/
structure EntryResult where
  required : Option FileInfo
  cacheVal : Option CachedFileInfo
  hashed : Bool
  sizeAdded : Nat
deriving DecidableEq

/-- The cache-trust test of lines 373-377: a cached record exists whose
recorded modification time equals the current one and whose recorded hash
equals the server hash. -/
def cacheTrusted (v : Option CachedFileInfo) (mt : Nat) (serverHash : String) : Bool :=
  match v with
  | some ci => ci.last_modified == mt && ci.hash == serverHash
  | none => false

/-- Per-entry body of the `filter_map` closure of `get_files_to_update`
(lines 350-400 of `file_handler.rs`), faithful to the branch order:

1. `!local_file_full_path.exists()` → required, size counted;
2. `fs::metadata` error → required, size counted;
3. `metadata.len() != size` → required, size counted (no hashing);
4. `metadata.modified().ok()?` — an unavailable modification time makes the
   closure return `None`, i.e. the entry is silently dropped;
5. cache-trust test → not required, no hashing;
6. otherwise hash the local file: a hash error → required; a computed hash is
   written into the cache for this path, and the entry is required exactly
   when the hash differs from the server hash. -/
def processEntry (fs : DiffFS) (e : FileInfo) (v : Option CachedFileInfo) : EntryResult :=
  if fs.present e.path = false then ⟨some e, v, false, e.size⟩
  else
    match fs.metadata e.path with
    | none => ⟨some e, v, false, e.size⟩
    | some md =>
      if md.len ≠ e.size then ⟨some e, v, false, e.size⟩
      else
        match md.modified with
        | none => ⟨none, v, false, 0⟩
        | some mt =>
          if cacheTrusted v mt e.hash then ⟨none, v, false, 0⟩
          else
            match fs.hashOf e.path with
            | none => ⟨some e, v, true, e.size⟩
            | some h =>
              if h ≠ e.hash then ⟨some e, some ⟨h, mt⟩, true, e.size⟩
              else ⟨none, some ⟨h, mt⟩, true, 0⟩

/-- Aggregate result of one diff pass: the required list (in manifest order),
the final cache, the reported `total_update_size`, and the paths on which the
content hasher was invoked. -/
structure DiffResult where
  required : List FileInfo
  cache : Cache
  totalSize : Nat
  hashedPaths : List String

/-- Point update of the cache map (`cache.insert`). -/
def cacheInsert (c : Cache) (p : String) (v : Option CachedFileInfo) : Cache :=
  fun q => if q = p then v else c q

/-- The per-entry loop of `get_files_to_update` over the parsed server
manifest, threading the mutex-guarded cache. -/
def runDiff (fs : DiffFS) : List FileInfo → Cache → DiffResult
  | [], c => ⟨[], c, 0, []⟩
  | e :: rest, c =>
    let r := processEntry fs e (c e.path)
    let tail := runDiff fs rest (cacheInsert c e.path r.cacheVal)
    ⟨r.required.toList ++ tail.required, tail.cache, r.sizeAdded + tail.totalSize,
      (if r.hashed then [e.path] else []) ++ tail.hashedPaths⟩

/-- `get_files_to_update`: diff the server manifest against the local
filesystem starting from the loaded cache. -/
def get_files_to_update (fs : DiffFS) (c : Cache) (manifest : List FileInfo) : DiffResult :=
  runDiff fs manifest c

/-! ### Download pipeline (`update_file`, `download_all_files`) -/

/-- A successful HTTP response: the optional `Content-Length` header and the
body as the stream of chunks in arrival order. -/
structure NetResponse where
  contentLength : Option Nat
  chunks : List (List Nat)
deriving DecidableEq

/-- Abstract network: url to response; `none` models a failed request or a
non-success HTTP status. -/
def Net : Type := String → Option NetResponse

/-- Abstract disk used by the download pipeline: path to written bytes. -/
def Disk : Type := String → Option (List Nat)

/-- Integer fields of the `download_progress` payload (`struct
ProgressPayload`); the floating-point fields are omitted. -/
structure ProgressPayload where
  file_name : String
  downloaded_bytes : Nat
  total_bytes : Nat
  total_files : Nat
  current_file_index : Nat
deriving DecidableEq

/-- Events emitted on the window channel by the download pipeline. -/
inductive Event where
  | download_progress (p : ProgressPayload)
  | download_complete
deriving DecidableEq

/-- Events emitted by the chunk loop of `update_file`: after writing chunk
`i` the cumulative per-file counter advances by the chunk length, and a
`download_progress` event fires when the time throttle allows it (oracle
`emitT i`) or the counter reaches `current_file_total_size`.  The payload's
`downloaded_bytes` is `accumulated_downloaded_bytes + downloaded_for_current_file`. -/
def streamEvents (emitT : Nat → Bool) (fname : String) (total accBytes totalSize totalFiles idx : Nat) :
    List (List Nat) → Nat → Nat → List Event
  | [], _, _ => []
  | ch :: rest, i, downloaded =>
    let d := downloaded + ch.length
    (if emitT i ∨ d = total then
      [Event.download_progress ⟨fname, accBytes + d, totalSize, totalFiles, idx⟩]
     else []) ++ streamEvents emitT fname total accBytes totalSize totalFiles idx rest (i + 1) d

/-- Result of one `update_file` call: events emitted, disk after the call,
and the returned value (`Ok(bytes downloaded)` or the error string). -/
structure UpdateResult where
  events : List Event
  disk : Disk
  result : Except String Nat

/-- `update_file` (lines 428-496): fetch the url; on failure return an error
without writing; otherwise stream the body to disk (the final content is the
concatenation of all chunks), emitting progress, then re-hash the written
file and fail with a named hash-mismatch error if it differs from the
expected hash — the written file stays on disk either way. -/
def update_file (hashB : List Nat → String) (net : Net) (emitT : Nat → Bool) (disk : Disk)
    (fi : FileInfo) (totalFiles idx totalSize accBytes : Nat) : UpdateResult :=
  match net fi.url with
  | none => ⟨[], disk, .error ("Failed to download file " ++ fi.path)⟩
  | some resp =>
    let total := resp.contentLength.getD fi.size
    let body := resp.chunks.flatten
    let events := streamEvents emitT fi.path total accBytes totalSize totalFiles idx resp.chunks 0 0
    let disk' := fun q => if q = fi.path then some body else disk q
    let h := hashB body
    if h ≠ fi.hash then
      ⟨events, disk',
        .error ("Hash mismatch for downloaded file: " ++ fi.path ++ ". Expected " ++ fi.hash ++ ", got " ++ h)⟩
    else ⟨events, disk', .ok body.length⟩

/-- Aggregate result of `download_all_files`: all emitted events, final disk,
the number of `update_file` invocations (each performs exactly one network
request), and the returned value. -/
structure DLResult where
  events : List Event
  disk : Disk
  fetches : Nat
  result : Except String (List Nat)

/-- The sequential loop of `download_all_files` (lines 517-541): files are
downloaded one by one with `accumulated_downloaded_bytes` carried forward; on
the first failure the loop stops and wraps the error with the failing file's
path; after the last file the `download_complete` event is emitted. -/
def downloadLoop (hashB : List Nat → String) (net : Net) (emitOr : Nat → Nat → Bool)
    (totalFiles totalSize : Nat) : List FileInfo → Nat → Nat → Disk → DLResult
  | [], _, _, disk => ⟨[Event.download_complete], disk, 0, .ok []⟩
  | fi :: rest, idx, accBytes, disk =>
    let u := update_file hashB net (emitOr idx) disk fi totalFiles (idx + 1) totalSize accBytes
    match u.result with
    | .error e => ⟨u.events, u.disk, 1, .error ("Failed to download " ++ fi.path ++ ": " ++ e)⟩
    | .ok n =>
      let tail := downloadLoop hashB net emitOr totalFiles totalSize rest (idx + 1) (accBytes + n) u.disk
      ⟨u.events ++ tail.events, tail.disk, 1 + tail.fetches, tail.result.map (fun l => n :: l)⟩

/-- `download_all_files` (lines 500-542): an empty batch emits
`download_complete` and returns `Ok(vec![])` immediately; otherwise the
sequential loop runs with the batch's total declared size. -/
def download_all_files (hashB : List Nat → String) (net : Net) (emitOr : Nat → Nat → Bool)
    (disk : Disk) (files : List FileInfo) : DLResult :=
  if files.length = 0 then ⟨[Event.download_complete], disk, 0, .ok []⟩
  else downloadLoop hashB net emitOr files.length (files.map FileInfo.size).sum files 0 0 disk

/-- The `downloaded_bytes` values of the progress events, in emission order. -/
def progressValues (events : List Event) : List Nat :=
  events.filterMap (fun ev =>
    match ev with
    | Event.download_progress p => some p.downloaded_bytes
    | Event.download_complete => none)

/-- Disk contents after sequentially writing each file's fetched body, in
order (the write performed by `update_file` for each file). -/
def writeAll (net : Net) (disk : Disk) (files : List FileInfo) : Disk :=
  files.foldl (fun d e => fun q =>
    if q = e.path then (net e.url).map (fun r => r.chunks.flatten) else d q) disk

/-! ### Ignore filter (`is_ignored`) -/

/-- Filesystem paths for the ignore filter are component lists; a component
is a separator-free character sequence.  Joining components with a slash
models `Path::to_os_string` followed by the backslash-to-slash replacement. -/
def joinSlash (rel : List (List Char)) : List Char :=
  (rel.intersperse ['/']).flatten

/-- `Path::strip_prefix`: the remaining components when `root` is a
component-wise prefix of `p`. -/
def stripRoot (root p : List (List Char)) : Option (List (List Char)) :=
  if root <+: p then some (p.drop root.length) else none

/-- `Path::parent`: the path without its final component (`none` for the
empty path). -/
def pathParent (p : List (List Char)) : Option (List (List Char)) :=
  if p = [] then none else some p.dropLast

/-- `is_ignored` (lines 72-99 of `file_handler.rs`): a path outside the root
is not ignored; otherwise the root-relative slash-joined string is tested —
a top-level exact member of the ignore set (the nested duplicate re-test of
the source is kept) and, failing that, the linear scan for a pattern that the
relative string starts with. -/
def is_ignored (p root : List (List Char)) (ignored_paths : List (List Char)) : Bool :=
  match stripRoot root p with
  | none => false
  | some rel =>
    let relS := joinSlash rel
    if (¬ '/' ∈ relS ∧ pathParent p = some root) ∧
        (relS ∈ ignored_paths ∨ (¬ '/' ∈ relS ∧ relS ∈ ignored_paths)) then true
    else ignored_paths.any (fun pat => pat.isPrefixOf relS)

/-! ### Content hasher (`calculate_file_hash`) -/

/-- The 8 KiB read loop of `calculate_file_hash`: the successive chunks
returned by `file.read(&mut buffer)` for a buffer of 8192 bytes. -/
def readChunks (l : List Nat) : List (List Nat) :=
  if h : l = [] then [] else l.take 8192 :: readChunks (l.drop 8192)
termination_by l.length
decreasing_by
  have hp : 0 < l.length := List.length_pos.mpr h
  simp only [List.length_drop]
  omega

/-- Lowercase hexadecimal digit. -/
def hexDigit (n : Nat) : Char :=
  if n < 10 then Char.ofNat (48 + n) else Char.ofNat (87 + n)

/-- Two lowercase hex digits of a byte, as printed by the `{:x}` formatting
of the finalized digest. -/
def byteHex (b : Nat) : List Char :=
  [hexDigit (b / 16 % 16), hexDigit (b % 16)]

/-- Lowercase hex encoding of a byte string. -/
def hexLower (bs : List Nat) : String :=
  String.mk (bs.flatMap byteHex)

/-- `calculate_file_hash` (lines 122-138): over an abstract streaming digest
`digest` (the SHA-256 finalization as a function of all bytes fed via
`update`) and an abstract content store `fs`, open the file (`none` on
failure), feed it chunk by chunk — the fed byte string is the left fold of
the 8 KiB chunks — and return the lowercase hex of the final digest. -/
def calculate_file_hash (digest : List Nat → List Nat) (fs : String → Option (List Nat))
    (path : String) : Option String :=
  (fs path).map (fun content =>
    hexLower (digest (List.foldl (fun acc ch => acc ++ ch) [] (readChunks content))))

/-! ### Branch lemmas for the diff engine -/

theorem cacheTrusted_iff (v : Option CachedFileInfo) (mt : Nat) (h : String) :
    cacheTrusted v mt h = true ↔ ∃ ci, v = some ci ∧ ci.last_modified = mt ∧ ci.hash = h := by
  cases v with
  | none => simp [cacheTrusted]
  | some ci => simp [cacheTrusted]

theorem processEntry_absent (fs : DiffFS) (e : FileInfo) (v : Option CachedFileInfo)
    (h : fs.present e.path = false) :
    processEntry fs e v = ⟨some e, v, false, e.size⟩ := by
  simp [processEntry, h]

theorem processEntry_meta_none (fs : DiffFS) (e : FileInfo) (v : Option CachedFileInfo)
    (h1 : fs.present e.path = true) (h2 : fs.metadata e.path = none) :
    processEntry fs e v = ⟨some e, v, false, e.size⟩ := by
  simp [processEntry, h1, h2]

theorem processEntry_size_ne (fs : DiffFS) (e : FileInfo) (v : Option CachedFileInfo)
    (md : FSMeta) (h1 : fs.present e.path = true) (h2 : fs.metadata e.path = some md)
    (h3 : md.len ≠ e.size) :
    processEntry fs e v = ⟨some e, v, false, e.size⟩ := by
  simp [processEntry, h1, h2, h3]

theorem processEntry_mtime_none (fs : DiffFS) (e : FileInfo) (v : Option CachedFileInfo)
    (md : FSMeta) (h1 : fs.present e.path = true) (h2 : fs.metadata e.path = some md)
    (h3 : md.len = e.size) (h4 : md.modified = none) :
    processEntry fs e v = ⟨none, v, false, 0⟩ := by
  simp [processEntry, h1, h2, h3, h4]

theorem processEntry_trusted (fs : DiffFS) (e : FileInfo) (v : Option CachedFileInfo)
    (md : FSMeta) (mt : Nat) (h1 : fs.present e.path = true)
    (h2 : fs.metadata e.path = some md) (h3 : md.len = e.size)
    (h4 : md.modified = some mt) (h5 : cacheTrusted v mt e.hash = true) :
    processEntry fs e v = ⟨none, v, false, 0⟩ := by
  simp [processEntry, h1, h2, h3, h4, h5]

theorem processEntry_required_some (fs : DiffFS) (e : FileInfo) (v : Option CachedFileInfo)
    (x : FileInfo) (h : (processEntry fs e v).required = some x) : x = e := by
  unfold processEntry at h
  repeat' split at h
  all_goals simp_all

theorem processEntry_sizeAdded (fs : DiffFS) (e : FileInfo) (v : Option CachedFileInfo) :
    (processEntry fs e v).sizeAdded =
      (((processEntry fs e v).required.toList).map FileInfo.size).sum := by
  unfold processEntry
  repeat' split
  all_goals simp

/-! ### List-level lemmas for the diff engine -/

theorem runDiff_required_sublist (fs : DiffFS) (m : List FileInfo) (c : Cache) :
    List.Sublist (runDiff fs m c).required m := by
  induction m generalizing c with
  | nil => simp [runDiff]
  | cons e rest ih =>
    simp only [runDiff]
    rcases hro : (processEntry fs e (c e.path)).required with _ | x
    · simpa [hro] using (ih (cacheInsert c e.path (processEntry fs e (c e.path)).cacheVal)).cons e
    · rw [processEntry_required_some fs e (c e.path) x hro]
      simpa using (ih (cacheInsert c e.path (processEntry fs e (c e.path)).cacheVal)).cons₂ e

theorem runDiff_hashedPaths_sub (fs : DiffFS) (m : List FileInfo) (c : Cache) :
    ∀ p ∈ (runDiff fs m c).hashedPaths, p ∈ m.map FileInfo.path := by
  induction m generalizing c with
  | nil => simp [runDiff]
  | cons e rest ih =>
    intro p hp
    simp only [runDiff, List.mem_append] at hp
    rcases hp with hp | hp
    · rcases hh : (processEntry fs e (c e.path)).hashed with _ | _ <;> simp [hh] at hp
      simp [hp]
    · have := ih (cacheInsert c e.path (processEntry fs e (c e.path)).cacheVal) p hp
      simp [this]

theorem runDiff_cache_stable (fs : DiffFS) (m : List FileInfo) (c : Cache) (q : String)
    (h : q ∉ m.map FileInfo.path) : (runDiff fs m c).cache q = c q := by
  induction m generalizing c with
  | nil => rfl
  | cons e rest ih =>
    simp only [List.map_cons, List.mem_cons, not_or] at h
    simp only [runDiff]
    rw [ih _ (by exact h.2)]
    simp [cacheInsert, h.1]

theorem runDiff_filter_absent (fs : DiffFS) (m : List FileInfo) (c : Cache) :
    (runDiff fs m c).required.filter (fun e => !fs.present e.path) =
      m.filter (fun e => !fs.present e.path) := by
  induction m generalizing c with
  | nil => rfl
  | cons e rest ih =>
    simp only [runDiff, List.filter_append]
    cases hp : fs.present e.path with
    | false =>
      rw [processEntry_absent fs e _ hp]
      simp [hp, ih]
    | true =>
      rcases hro : (processEntry fs e (c e.path)).required with _ | x
      · simp [hro, hp, ih]
      · have hx := processEntry_required_some fs e (c e.path) x hro
        simp [hro, hx, hp, ih]

theorem runDiff_totalSize (fs : DiffFS) (m : List FileInfo) (c : Cache) :
    (runDiff fs m c).totalSize = ((runDiff fs m c).required.map FileInfo.size).sum := by
  induction m generalizing c with
  | nil => rfl
  | cons e rest ih =>
    simp only [runDiff, List.map_append, List.sum_append]
    rw [processEntry_sizeAdded fs e (c e.path), ih]

theorem runDiff_forced_mem (fs : DiffFS) (e : FileInfo) (m : List FileInfo) (c : Cache)
    (hm : e ∈ m) (hf : ∀ v, (processEntry fs e v).required = some e) :
    e ∈ (runDiff fs m c).required := by
  revert hm
  induction m generalizing c with
  | nil => intro hm; cases hm
  | cons a rest ih =>
    intro hm
    simp only [runDiff, List.mem_append]
    rcases List.mem_cons.mp hm with rfl | hm'
    · left
      simp [hf (c e.path)]
    · right
      exact ih _ hm'

theorem runDiff_never_hashed (fs : DiffFS) (e : FileInfo) (m : List FileInfo) (c : Cache)
    (hnd : (m.map FileInfo.path).Nodup) (hm : e ∈ m)
    (hh : ∀ v, (processEntry fs e v).hashed = false) :
    e.path ∉ (runDiff fs m c).hashedPaths := by
  revert hnd hm
  induction m generalizing c with
  | nil => intro _ hm; cases hm
  | cons a rest ih =>
    intro hnd hm
    simp only [List.map_cons, List.nodup_cons] at hnd
    simp only [runDiff, List.mem_append, not_or]
    rcases List.mem_cons.mp hm with rfl | hm'
    · refine ⟨by simp [hh (c e.path)], fun hmem => ?_⟩
      exact hnd.1 (runDiff_hashedPaths_sub fs rest _ e.path hmem)
    · have hps : a.path ≠ e.path := by
        intro hq
        exact hnd.1 (hq ▸ List.mem_map_of_mem FileInfo.path hm')
      refine ⟨?_, ih _ hnd.2 hm'⟩
      rcases hha : (processEntry fs a (c a.path)).hashed with _ | _ <;>
        simp [hha, hps.symm]

theorem runDiff_skip (fs : DiffFS) (e : FileInfo) (m : List FileInfo) (c : Cache)
    (hnd : (m.map FileInfo.path).Nodup) (hm : e ∈ m)
    (hreq : (processEntry fs e (c e.path)).required = none)
    (hhash : (processEntry fs e (c e.path)).hashed = false) :
    e ∉ (runDiff fs m c).required ∧ e.path ∉ (runDiff fs m c).hashedPaths := by
  revert hnd hm hreq hhash
  induction m generalizing c with
  | nil => intro _ hm _ _; cases hm
  | cons a rest ih =>
    intro hnd hm hreq hhash
    simp only [List.map_cons, List.nodup_cons] at hnd
    simp only [runDiff, List.mem_append, not_or]
    rcases List.mem_cons.mp hm with rfl | hm'
    · refine ⟨⟨by simp [hreq], fun hmem => ?_⟩, by simp [hhash], fun hmem => ?_⟩
      · have hsub := runDiff_required_sublist fs rest
          (cacheInsert c e.path (processEntry fs e (c e.path)).cacheVal)
        exact hnd.1 (List.mem_map_of_mem FileInfo.path (hsub.subset hmem))
      · exact hnd.1 (runDiff_hashedPaths_sub fs rest _ e.path hmem)
    · have hps : a.path ≠ e.path := by
        intro hq
        exact hnd.1 (hq ▸ List.mem_map_of_mem FileInfo.path hm')
      have hc : cacheInsert c a.path (processEntry fs a (c a.path)).cacheVal e.path = c e.path := by
        simp [cacheInsert, hps.symm]
      have ihh := ih (cacheInsert c a.path (processEntry fs a (c a.path)).cacheVal) hnd.2 hm'
        (by rw [hc]; exact hreq) (by rw [hc]; exact hhash)
    -- head contribution cannot be e (its payload is a, and a ≠ e since their paths differ)
      have hae : a ≠ e := fun h => hps (congrArg FileInfo.path h)
      refine ⟨⟨fun hmem => ?_, ihh.1⟩, ?_, ihh.2⟩
      · rcases hro : (processEntry fs a (c a.path)).required with _ | x
        · simp [hro] at hmem
        · have hx := processEntry_required_some fs a (c a.path) x hro
          rw [hro, hx] at hmem
          simp at hmem
          exact hae hmem.symm
      · rcases hha : (processEntry fs a (c a.path)).hashed with _ | _ <;>
          simp [hha, hps.symm]

theorem processEntry_hash_none (fs : DiffFS) (e : FileInfo) (v : Option CachedFileInfo)
    (md : FSMeta) (mt : Nat) (h1 : fs.present e.path = true)
    (h2 : fs.metadata e.path = some md) (h3 : md.len = e.size)
    (h4 : md.modified = some mt) (htr : cacheTrusted v mt e.hash = false)
    (hh : fs.hashOf e.path = none) :
    processEntry fs e v = ⟨some e, v, true, e.size⟩ := by
  simp [processEntry, h1, h2, h3, h4, htr, hh]

theorem processEntry_hash_ne (fs : DiffFS) (e : FileInfo) (v : Option CachedFileInfo)
    (md : FSMeta) (mt : Nat) (h : String) (h1 : fs.present e.path = true)
    (h2 : fs.metadata e.path = some md) (h3 : md.len = e.size)
    (h4 : md.modified = some mt) (htr : cacheTrusted v mt e.hash = false)
    (hh : fs.hashOf e.path = some h) (hne : h ≠ e.hash) :
    processEntry fs e v = ⟨some e, some ⟨h, mt⟩, true, e.size⟩ := by
  simp [processEntry, h1, h2, h3, h4, htr, hh, hne]

theorem processEntry_hash_eq (fs : DiffFS) (e : FileInfo) (v : Option CachedFileInfo)
    (md : FSMeta) (mt : Nat) (h : String) (h1 : fs.present e.path = true)
    (h2 : fs.metadata e.path = some md) (h3 : md.len = e.size)
    (h4 : md.modified = some mt) (htr : cacheTrusted v mt e.hash = false)
    (hh : fs.hashOf e.path = some h) (heq : h = e.hash) :
    processEntry fs e v = ⟨none, some ⟨h, mt⟩, true, 0⟩ := by
  simp [processEntry, h1, h2, h3, h4, htr, hh, heq]

theorem processEntry_idem (fs : DiffFS) (e : FileInfo) (v : Option CachedFileInfo) :
    (processEntry fs e (processEntry fs e v).cacheVal).required = (processEntry fs e v).required ∧
      (processEntry fs e (processEntry fs e v).cacheVal).cacheVal = (processEntry fs e v).cacheVal := by
  cases hp : fs.present e.path with
  | false => simp [processEntry_absent fs e _ hp]
  | true =>
    cases hmd : fs.metadata e.path with
    | none => simp [processEntry_meta_none fs e _ hp hmd]
    | some md =>
      by_cases hlen : md.len = e.size
      · cases hmt : md.modified with
        | none => simp [processEntry_mtime_none fs e _ md hp hmd hlen hmt]
        | some mt =>
          by_cases htr : cacheTrusted v mt e.hash = true
          · simp [processEntry_trusted fs e v md mt hp hmd hlen hmt htr]
          · have htr' : cacheTrusted v mt e.hash = false := by
              rcases hb : cacheTrusted v mt e.hash with _ | _
              · rfl
              · exact absurd hb htr
            cases hh : fs.hashOf e.path with
            | none =>
              rw [processEntry_hash_none fs e v md mt hp hmd hlen hmt htr' hh]
              simp [processEntry_hash_none fs e v md mt hp hmd hlen hmt htr' hh]
            | some h =>
              by_cases hhe : h = e.hash
              · rw [processEntry_hash_eq fs e v md mt h hp hmd hlen hmt htr' hh hhe]
                have htr2 : cacheTrusted (some ⟨h, mt⟩) mt e.hash = true := by
                  simp [cacheTrusted, hhe]
                simp [processEntry_trusted fs e (some ⟨h, mt⟩) md mt hp hmd hlen hmt htr2]
              · rw [processEntry_hash_ne fs e v md mt h hp hmd hlen hmt htr' hh hhe]
                have htr2 : cacheTrusted (some ⟨h, mt⟩) mt e.hash = false := by
                  simp [cacheTrusted, hhe]
                simp [processEntry_hash_ne fs e (some ⟨h, mt⟩) md mt h hp hmd hlen hmt htr2 hh hhe]
      · simp [processEntry_size_ne fs e _ md hp hmd hlen]

theorem runDiff_restart (fs : DiffFS) (m : List FileInfo) :
    (m.map FileInfo.path).Nodup → ∀ c c₂ : Cache,
      (∀ a ∈ m, c₂ a.path = (runDiff fs m c).cache a.path) →
      (runDiff fs m c₂).required = (runDiff fs m c).required := by
  induction m with
  | nil => intro _ c c₂ _; rfl
  | cons a rest ih =>
    intro hnd c c₂ hagree
    simp only [List.map_cons, List.nodup_cons] at hnd
    have hcache_run : (runDiff fs (a :: rest) c).cache =
        (runDiff fs rest (cacheInsert c a.path (processEntry fs a (c a.path)).cacheVal)).cache := rfl
    have hstable :
        (runDiff fs rest (cacheInsert c a.path (processEntry fs a (c a.path)).cacheVal)).cache a.path
          = (processEntry fs a (c a.path)).cacheVal := by
      rw [runDiff_cache_stable fs rest _ a.path hnd.1]
      simp [cacheInsert]
    have hc2a : c₂ a.path = (processEntry fs a (c a.path)).cacheVal := by
      rw [hagree a (List.mem_cons_self a rest), hcache_run, hstable]
    have hid := processEntry_idem fs a (c a.path)
    have hreq : (processEntry fs a (c₂ a.path)).required =
        (processEntry fs a (c a.path)).required := by
      rw [hc2a]; exact hid.1
    have hagree' : ∀ b ∈ rest,
        cacheInsert c₂ a.path (processEntry fs a (c₂ a.path)).cacheVal b.path =
          (runDiff fs rest (cacheInsert c a.path (processEntry fs a (c a.path)).cacheVal)).cache b.path := by
      intro b hb
      have hbp : b.path ≠ a.path := fun h => hnd.1 (h ▸ List.mem_map_of_mem FileInfo.path hb)
      have hcb : cacheInsert c₂ a.path (processEntry fs a (c₂ a.path)).cacheVal b.path = c₂ b.path := by
        simp [cacheInsert, hbp]
      rw [hcb, hagree b (List.mem_cons_of_mem a hb), hcache_run]
    have htail := ih hnd.2 (cacheInsert c a.path (processEntry fs a (c a.path)).cacheVal)
      (cacheInsert c₂ a.path (processEntry fs a (c₂ a.path)).cacheVal) hagree'
    simp only [runDiff]
    rw [hreq, htail]

/-! ### Claim theorems: diff engine -/

/-- C1: every server manifest entry whose local file is absent is included in
the required set with its server-declared fields (the required entries whose
file is absent are exactly the absent manifest entries, in manifest order,
which also gives the size lower bound), and the reported update total is the
sum of the full server-declared sizes of the required entries, so each absent
entry contributes its full size. -/
theorem C1_missing_file_rule (fs : DiffFS) (c : Cache) (m : List FileInfo) :
    (get_files_to_update fs c m).required.filter (fun e => !fs.present e.path) =
        m.filter (fun e => !fs.present e.path) ∧
      List.Sublist (m.filter (fun e => !fs.present e.path))
        (get_files_to_update fs c m).required ∧
      (get_files_to_update fs c m).totalSize =
        ((get_files_to_update fs c m).required.map FileInfo.size).sum := by
  refine ⟨runDiff_filter_absent fs m c, ?_, runDiff_totalSize fs m c⟩
  have hf := runDiff_filter_absent fs m c
  rw [get_files_to_update, ← hf]
  exact List.filter_sublist _

/-- C2: a server manifest entry whose local file exists but whose metadata
length differs from the server-declared size is classified as required by
`get_files_to_update`, and the content hasher is never invoked on that file;
the per-entry evaluation is independent of the cache value. -/
theorem C2_size_mismatch_skips_hashing (fs : DiffFS) (c : Cache) (m : List FileInfo)
    (e : FileInfo) (md : FSMeta) (hm : e ∈ m) (hnd : (m.map FileInfo.path).Nodup)
    (h1 : fs.present e.path = true) (h2 : fs.metadata e.path = some md)
    (h3 : md.len ≠ e.size) :
    e ∈ (get_files_to_update fs c m).required ∧
      e.path ∉ (get_files_to_update fs c m).hashedPaths ∧
      ∀ v, processEntry fs e v = ⟨some e, v, false, e.size⟩ := by
  refine ⟨?_, ?_, fun v => processEntry_size_ne fs e v md h1 h2 h3⟩
  · exact runDiff_forced_mem fs e m c hm
      (fun v => by rw [processEntry_size_ne fs e v md h1 h2 h3])
  · exact runDiff_never_hashed fs e m c hnd hm
      (fun v => by rw [processEntry_size_ne fs e v md h1 h2 h3])

/-- C2 witness: a concrete one-entry manifest with a present local file of
length 7 against a declared size of 5 is required and never hashed. -/
theorem C2_size_mismatch_skips_hashing_witness :
    ((⟨"f", "h", 5, "u"⟩ : FileInfo) ∈ [(⟨"f", "h", 5, "u"⟩ : FileInfo)]) ∧
      (([(⟨"f", "h", 5, "u"⟩ : FileInfo)]).map FileInfo.path).Nodup ∧
      ((⟨fun _ => true, fun _ => some ⟨7, some 3⟩, fun _ => some "zz"⟩ : DiffFS).present "f" = true) ∧
      ((7 : Nat) ≠ 5) ∧
      ((⟨"f", "h", 5, "u"⟩ : FileInfo) ∈
        (get_files_to_update (⟨fun _ => true, fun _ => some ⟨7, some 3⟩, fun _ => some "zz"⟩ : DiffFS)
          (fun _ => none) [(⟨"f", "h", 5, "u"⟩ : FileInfo)]).required ∧
        "f" ∉ (get_files_to_update (⟨fun _ => true, fun _ => some ⟨7, some 3⟩, fun _ => some "zz"⟩ : DiffFS)
          (fun _ => none) [(⟨"f", "h", 5, "u"⟩ : FileInfo)]).hashedPaths ∧
        ∀ v, processEntry (⟨fun _ => true, fun _ => some ⟨7, some 3⟩, fun _ => some "zz"⟩ : DiffFS)
          (⟨"f", "h", 5, "u"⟩ : FileInfo) v = ⟨some ⟨"f", "h", 5, "u"⟩, v, false, 5⟩) :=
  ⟨by decide, by decide, rfl, by decide,
    C2_size_mismatch_skips_hashing _ _ _ _ ⟨7, some 3⟩ (by decide) (by decide) rfl rfl (by decide)⟩

/-- C3: a server manifest entry whose local file exists with matching size and
whose cache record matches both the current modification time and the server
hash is excluded from the required set, and the content hasher is never
invoked on that file. -/
theorem C3_cache_trust_skips_hashing (fs : DiffFS) (c : Cache) (m : List FileInfo)
    (e : FileInfo) (md : FSMeta) (mt : Nat) (ci : CachedFileInfo)
    (hm : e ∈ m) (hnd : (m.map FileInfo.path).Nodup)
    (h1 : fs.present e.path = true) (h2 : fs.metadata e.path = some md)
    (h3 : md.len = e.size) (h4 : md.modified = some mt)
    (h5 : c e.path = some ci) (h6 : ci.last_modified = mt) (h7 : ci.hash = e.hash) :
    e ∉ (get_files_to_update fs c m).required ∧
      e.path ∉ (get_files_to_update fs c m).hashedPaths := by
  have htr : cacheTrusted (c e.path) mt e.hash = true := by
    rw [h5]
    simp [cacheTrusted, h6, h7]
  have hpe := processEntry_trusted fs e (c e.path) md mt h1 h2 h3 h4 htr
  exact runDiff_skip fs e m c hnd hm (by rw [hpe]) (by rw [hpe])

/-- C3 witness: a concrete entry with matching size, matching cached
modification time and matching cached hash is excluded without hashing. -/
theorem C3_cache_trust_skips_hashing_witness :
    ((fun (_ : String) => some (⟨"h", 3⟩ : CachedFileInfo)) "f" = some ⟨"h", 3⟩) ∧
      ((⟨"f", "h", 5, "u"⟩ : FileInfo) ∉
        (get_files_to_update (⟨fun _ => true, fun _ => some ⟨5, some 3⟩, fun _ => some "zz"⟩ : DiffFS)
          (fun _ => some ⟨"h", 3⟩) [(⟨"f", "h", 5, "u"⟩ : FileInfo)]).required ∧
        "f" ∉ (get_files_to_update (⟨fun _ => true, fun _ => some ⟨5, some 3⟩, fun _ => some "zz"⟩ : DiffFS)
          (fun _ => some ⟨"h", 3⟩) [(⟨"f", "h", 5, "u"⟩ : FileInfo)]).hashedPaths) :=
  ⟨rfl, C3_cache_trust_skips_hashing _ _ _ _ ⟨5, some 3⟩ 3 ⟨"h", 3⟩ (by decide) (by decide)
    rfl rfl (by decide) rfl rfl (by decide) (by decide)⟩

/-- C5: evaluation of the code at the failing input.  A server entry whose
local file exists with matching size but whose modification time is
unavailable is silently excluded from the required set (the closure returns
`None` at `metadata.modified().ok()?`), instead of being classified as
required as the specification demands. -/
theorem C5_unavailable_mtime_silently_excluded :
    (get_files_to_update
        (⟨fun _ => true, fun _ => some ⟨5, none⟩, fun _ => some "zz"⟩ : DiffFS)
        (fun _ => none) [(⟨"f", "h", 5, "u"⟩ : FileInfo)]).required = [] ∧
      processEntry (⟨fun _ => true, fun _ => some ⟨5, none⟩, fun _ => some "zz"⟩ : DiffFS)
        (⟨"f", "h", 5, "u"⟩ : FileInfo) none = ⟨none, none, false, 0⟩ := by
  exact ⟨rfl, rfl⟩

/-- C6 counterexample: with a single manifest entry whose local file does not
exist and no filesystem change, the second diff run (from the first run's
persisted cache) again reports that entry, so its required set is not empty. -/
theorem C6_counterexample_second_run_nonempty :
    (get_files_to_update (⟨fun _ => false, fun _ => none, fun _ => none⟩ : DiffFS)
        (get_files_to_update (⟨fun _ => false, fun _ => none, fun _ => none⟩ : DiffFS)
          (fun _ => none) [(⟨"a", "h1", 5, "u"⟩ : FileInfo)]).cache
        [(⟨"a", "h1", 5, "u"⟩ : FileInfo)]).required ≠ [] := by
  decide

/-- C6 (amended): running the diff engine twice against the same server
manifest with no filesystem changes, the second run starting from the first
run's final cache, yields the same required set as the first run — in
particular it is empty exactly when the first run's required set is empty
(for a manifest whose entry paths are unique, the manifest's identity-key
invariant). -/
theorem C6_second_run_same_required (fs : DiffFS) (c : Cache) (m : List FileInfo)
    (hnd : (m.map FileInfo.path).Nodup) :
    (get_files_to_update fs (get_files_to_update fs c m).cache m).required =
      (get_files_to_update fs c m).required :=
  runDiff_restart fs m hnd c _ (fun a _ => rfl)

/-- C6 witness: the amended theorem applied to a concrete one-entry manifest
with an absent local file. -/
theorem C6_second_run_same_required_witness :
    (([(⟨"b.txt", "h2", 20, "u2"⟩ : FileInfo)]).map FileInfo.path).Nodup ∧
      (get_files_to_update (⟨fun _ => false, fun _ => none, fun _ => none⟩ : DiffFS)
          (get_files_to_update (⟨fun _ => false, fun _ => none, fun _ => none⟩ : DiffFS)
            (fun _ => none) [(⟨"b.txt", "h2", 20, "u2"⟩ : FileInfo)]).cache
          [(⟨"b.txt", "h2", 20, "u2"⟩ : FileInfo)]).required =
        (get_files_to_update (⟨fun _ => false, fun _ => none, fun _ => none⟩ : DiffFS)
          (fun _ => none) [(⟨"b.txt", "h2", 20, "u2"⟩ : FileInfo)]).required :=
  ⟨by decide, C6_second_run_same_required _ _ _ (by decide)⟩

/-! ### Lemmas for the download pipeline -/

theorem progressValues_append (l1 l2 : List Event) :
    progressValues (l1 ++ l2) = progressValues l1 ++ progressValues l2 :=
  List.filterMap_append l1 l2 _

theorem streamEvents_lb (emitT : Nat → Bool) (f : String) (total accB ts tf idx : Nat) :
    ∀ (chunks : List (List Nat)) (i d : Nat),
      ∀ x ∈ progressValues (streamEvents emitT f total accB ts tf idx chunks i d),
        accB + d ≤ x := by
  intro chunks
  induction chunks with
  | nil => intro i d x hx; simp [streamEvents, progressValues] at hx
  | cons ch rest ih =>
    intro i d x hx
    simp only [streamEvents] at hx
    rw [progressValues_append, List.mem_append] at hx
    rcases hx with hx | hx
    · by_cases hc : (emitT i = true ∨ d + ch.length = total)
      · simp [hc, progressValues] at hx
        omega
      · simp [hc, progressValues] at hx
    · have := ih (i + 1) (d + ch.length) x hx
      omega

theorem streamEvents_ub (emitT : Nat → Bool) (f : String) (total accB ts tf idx : Nat) :
    ∀ (chunks : List (List Nat)) (i d : Nat),
      ∀ x ∈ progressValues (streamEvents emitT f total accB ts tf idx chunks i d),
        x ≤ accB + d + chunks.flatten.length := by
  intro chunks
  induction chunks with
  | nil => intro i d x hx; simp [streamEvents, progressValues] at hx
  | cons ch rest ih =>
    intro i d x hx
    simp only [streamEvents] at hx
    rw [progressValues_append, List.mem_append] at hx
    simp only [List.flatten_cons, List.length_append]
    rcases hx with hx | hx
    · by_cases hc : (emitT i = true ∨ d + ch.length = total)
      · simp [hc, progressValues] at hx
        omega
      · simp [hc, progressValues] at hx
    · have := ih (i + 1) (d + ch.length) x hx
      omega

theorem streamEvents_chain (emitT : Nat → Bool) (f : String) (total accB ts tf idx : Nat) :
    ∀ (chunks : List (List Nat)) (i d : Nat),
      List.Chain' (· ≤ ·) (progressValues (streamEvents emitT f total accB ts tf idx chunks i d)) := by
  intro chunks
  induction chunks with
  | nil => intro i d; simp [streamEvents, progressValues]
  | cons ch rest ih =>
    intro i d
    simp only [streamEvents]
    rw [progressValues_append]
    by_cases hc : (emitT i = true ∨ d + ch.length = total)
    · simp only [hc, if_pos, progressValues, List.filterMap_cons_some, List.filterMap_nil,
        List.singleton_append]
      refine List.chain'_cons'.mpr ⟨?_, ih (i + 1) (d + ch.length)⟩
      intro y hy
      have hmem := List.mem_of_mem_head? hy
      exact streamEvents_lb emitT f total accB ts tf idx rest (i + 1) (d + ch.length) y hmem
    · simp only [hc, if_neg, progressValues, List.filterMap_nil, List.nil_append]
      exact ih (i + 1) (d + ch.length)

theorem update_file_fetch_fail (hashB : List Nat → String) (net : Net) (emitT : Nat → Bool)
    (disk : Disk) (fi : FileInfo) (tf idx ts accB : Nat) (hnet : net fi.url = none) :
    update_file hashB net emitT disk fi tf idx ts accB =
      ⟨[], disk, .error ("Failed to download file " ++ fi.path)⟩ := by
  simp [update_file, hnet]

theorem update_file_mismatch (hashB : List Nat → String) (net : Net) (emitT : Nat → Bool)
    (disk : Disk) (fi : FileInfo) (tf idx ts accB : Nat) (resp : NetResponse)
    (hnet : net fi.url = some resp) (hbad : hashB resp.chunks.flatten ≠ fi.hash) :
    update_file hashB net emitT disk fi tf idx ts accB =
      ⟨streamEvents emitT fi.path (resp.contentLength.getD fi.size) accB ts tf idx resp.chunks 0 0,
        fun q => if q = fi.path then some resp.chunks.flatten else disk q,
        .error ("Hash mismatch for downloaded file: " ++ fi.path ++ ". Expected " ++ fi.hash ++
          ", got " ++ hashB resp.chunks.flatten)⟩ := by
  simp [update_file, hnet, hbad]

theorem update_file_success (hashB : List Nat → String) (net : Net) (emitT : Nat → Bool)
    (disk : Disk) (fi : FileInfo) (tf idx ts accB : Nat) (resp : NetResponse)
    (hnet : net fi.url = some resp) (hgood : hashB resp.chunks.flatten = fi.hash) :
    update_file hashB net emitT disk fi tf idx ts accB =
      ⟨streamEvents emitT fi.path (resp.contentLength.getD fi.size) accB ts tf idx resp.chunks 0 0,
        fun q => if q = fi.path then some resp.chunks.flatten else disk q,
        .ok resp.chunks.flatten.length⟩ := by
  simp [update_file, hnet, hgood]

theorem update_file_ok_shape (hashB : List Nat → String) (net : Net) (emitT : Nat → Bool)
    (disk : Disk) (fi : FileInfo) (tf idx ts accB n : Nat)
    (h : (update_file hashB net emitT disk fi tf idx ts accB).result = .ok n) :
    ∃ resp, net fi.url = some resp ∧ n = resp.chunks.flatten.length ∧
      hashB resp.chunks.flatten = fi.hash := by
  cases hnet : net fi.url with
  | none =>
    rw [update_file_fetch_fail hashB net emitT disk fi tf idx ts accB hnet] at h
    cases h
  | some resp =>
    by_cases hb : hashB resp.chunks.flatten = fi.hash
    · rw [update_file_success hashB net emitT disk fi tf idx ts accB resp hnet hb] at h
      exact ⟨resp, rfl, (Except.ok.inj h).symm, hb⟩
    · rw [update_file_mismatch hashB net emitT disk fi tf idx ts accB resp hnet hb] at h
      cases h

theorem update_file_progress (hashB : List Nat → String) (net : Net) (emitT : Nat → Bool)
    (disk : Disk) (fi : FileInfo) (tf idx ts accB : Nat) :
    List.Chain' (· ≤ ·)
        (progressValues (update_file hashB net emitT disk fi tf idx ts accB).events) ∧
      (∀ x ∈ progressValues (update_file hashB net emitT disk fi tf idx ts accB).events,
        accB ≤ x) ∧
      (∀ x ∈ progressValues (update_file hashB net emitT disk fi tf idx ts accB).events,
        ∃ resp, net fi.url = some resp ∧ x ≤ accB + resp.chunks.flatten.length) := by
  cases hnet : net fi.url with
  | none =>
    rw [update_file_fetch_fail hashB net emitT disk fi tf idx ts accB hnet]
    simp [progressValues]
  | some resp =>
    have he : (update_file hashB net emitT disk fi tf idx ts accB).events =
        streamEvents emitT fi.path (resp.contentLength.getD fi.size) accB ts tf idx
          resp.chunks 0 0 := by
      by_cases hb : hashB resp.chunks.flatten = fi.hash
      · rw [update_file_success hashB net emitT disk fi tf idx ts accB resp hnet hb]
      · rw [update_file_mismatch hashB net emitT disk fi tf idx ts accB resp hnet hb]
    rw [he]
    refine ⟨streamEvents_chain emitT fi.path _ accB ts tf idx resp.chunks 0 0, ?_, ?_⟩
    · intro x hx
      have := streamEvents_lb emitT fi.path _ accB ts tf idx resp.chunks 0 0 x hx
      omega
    · intro x hx
      have := streamEvents_ub emitT fi.path _ accB ts tf idx resp.chunks 0 0 x hx
      exact ⟨resp, rfl, by omega⟩

theorem downloadLoop_progress (hashB : List Nat → String) (net : Net)
    (emitOr : Nat → Nat → Bool) (tf ts : Nat) :
    ∀ (files : List FileInfo) (idx accB : Nat) (disk : Disk),
      List.Chain' (· ≤ ·)
          (progressValues (downloadLoop hashB net emitOr tf ts files idx accB disk).events) ∧
        (∀ x ∈ progressValues (downloadLoop hashB net emitOr tf ts files idx accB disk).events,
          accB ≤ x) ∧
        ((∀ e ∈ files, ∀ resp, net e.url = some resp → resp.chunks.flatten.length ≤ e.size) →
          ∀ x ∈ progressValues (downloadLoop hashB net emitOr tf ts files idx accB disk).events,
            x ≤ accB + (files.map FileInfo.size).sum) := by
  intro files
  induction files with
  | nil =>
    intro idx accB disk
    refine ⟨?_, ?_, ?_⟩ <;> simp [downloadLoop, progressValues]
  | cons fi rest ih =>
    intro idx accB disk
    simp only [downloadLoop]
    cases hres : (update_file hashB net (emitOr idx) disk fi tf (idx + 1) ts accB).result with
    | error err =>
      obtain ⟨hch, hlb, hub⟩ := update_file_progress hashB net (emitOr idx) disk fi tf (idx + 1) ts accB
      refine ⟨hch, hlb, ?_⟩
      intro hlen x hx
      obtain ⟨resp, hnet, hxle⟩ := hub x hx
      have hr := hlen fi (List.mem_cons_self fi rest) resp hnet
      simp only [List.map_cons, List.sum_cons]
      omega
    | ok n =>
      obtain ⟨hch, hlb, hub⟩ := update_file_progress hashB net (emitOr idx) disk fi tf (idx + 1) ts accB
      obtain ⟨hchT, hlbT, hubT⟩ := ih (idx + 1) (accB + n)
        (update_file hashB net (emitOr idx) disk fi tf (idx + 1) ts accB).disk
      obtain ⟨resp, hnet, hn, hhash⟩ :=
        update_file_ok_shape hashB net (emitOr idx) disk fi tf (idx + 1) ts accB n hres
      have hub' : ∀ x ∈ progressValues
          (update_file hashB net (emitOr idx) disk fi tf (idx + 1) ts accB).events,
          x ≤ accB + n := by
        intro x hx
        obtain ⟨resp', hnet', hxle⟩ := hub x hx
        rw [hnet] at hnet'
        rw [hn, Option.some.inj hnet']
        exact hxle
      refine ⟨?_, ?_, ?_⟩
      · rw [progressValues_append]
        refine List.Chain'.append hch hchT ?_
        intro x hxl y hyh
        have hx' := List.mem_of_getLast?_eq_some hxl
        have hy' := List.mem_of_mem_head? hyh
        exact le_trans (hub' x hx') (hlbT y hy')
      · intro x hx
        rw [progressValues_append, List.mem_append] at hx
        rcases hx with hx | hx
        · exact hlb x hx
        · have := hlbT x hx
          omega
      · intro hlen x hx
        have hnle : n ≤ fi.size := by
          rw [hn]
          exact hlen fi (List.mem_cons_self fi rest) resp hnet
        rw [progressValues_append, List.mem_append] at hx
        simp only [List.map_cons, List.sum_cons]
        rcases hx with hx | hx
        · have := hub' x hx
          omega
        · have := hubT (fun e he r hr => hlen e (List.mem_cons_of_mem fi he) r hr) x hx
          omega

theorem downloadLoop_abort (hashB : List Nat → String) (net : Net)
    (emitOr : Nat → Nat → Bool) (tf ts : Nat) :
    ∀ (pre : List FileInfo) (fi : FileInfo) (post : List FileInfo) (idx accB : Nat)
      (disk : Disk) (resp : NetResponse),
      (∀ e ∈ pre, ∃ r, net e.url = some r ∧ hashB r.chunks.flatten = e.hash) →
      net fi.url = some resp →
      hashB resp.chunks.flatten ≠ fi.hash →
      (downloadLoop hashB net emitOr tf ts (pre ++ fi :: post) idx accB disk).result =
          .error ("Failed to download " ++ fi.path ++ ": " ++
            ("Hash mismatch for downloaded file: " ++ fi.path ++ ". Expected " ++ fi.hash ++
              ", got " ++ hashB resp.chunks.flatten)) ∧
        (downloadLoop hashB net emitOr tf ts (pre ++ fi :: post) idx accB disk).fetches =
          pre.length + 1 ∧
        (downloadLoop hashB net emitOr tf ts (pre ++ fi :: post) idx accB disk).disk =
          writeAll net disk (pre ++ [fi]) := by
  intro pre
  induction pre with
  | nil =>
    intro fi post idx accB disk resp hgood hnet hbad
    simp only [List.nil_append, downloadLoop]
    rw [update_file_mismatch hashB net (emitOr idx) disk fi tf (idx + 1) ts accB resp hnet hbad]
    refine ⟨rfl, rfl, ?_⟩
    funext q
    simp [writeAll, hnet]
  | cons e pre' ih =>
    intro fi post idx accB disk resp hgood hnet hbad
    obtain ⟨r, hner, hhr⟩ := hgood e (List.mem_cons_self e pre')
    simp only [List.cons_append, downloadLoop]
    rw [update_file_success hashB net (emitOr idx) disk e tf (idx + 1) ts accB r hner hhr]
    have ihh := ih fi post (idx + 1) (accB + r.chunks.flatten.length)
      (fun q => if q = e.path then some r.chunks.flatten else disk q) resp
      (fun b hb => hgood b (List.mem_cons_of_mem e hb)) hnet hbad
    refine ⟨?_, ?_, ?_⟩
    · simp only [List.append_eq]
      rw [ihh.1]
      rfl
    · simp only [List.append_eq]
      rw [ihh.2.1]
      simp only [List.length_cons]
      omega
    · simp only [List.append_eq]
      rw [ihh.2.2]
      have hseed : (fun q => if q = e.path then some r.chunks.flatten else disk q) =
          (fun q => if q = e.path then (net e.url).map (fun r' => r'.chunks.flatten) else disk q) := by
        funext q
        simp [hner]
      simp only [writeAll, List.cons_append, List.foldl_cons]
      rw [← hseed]

/-! ### Claim theorems: download pipeline -/

/-- C4: when the re-hash of a downloaded file differs from the expected hash,
`update_file` returns a hash-mismatch error naming that file (for any disk,
throttle oracle and progress accounting), and `download_all_files` on any
batch containing that file after successfully-verifying files aborts there:
it performs one network request per file up to and including the failing one
and none for the remaining files, surfaces the failing file's name in its
error, and the final disk holds the written bodies of the prior files and of
the failing file (no rollback). -/
theorem C4_hash_mismatch_aborts (hashB : List Nat → String) (net : Net)
    (emitOr : Nat → Nat → Bool) (disk : Disk) (pre post : List FileInfo)
    (fi : FileInfo) (resp : NetResponse)
    (hgood : ∀ e ∈ pre, ∃ r, net e.url = some r ∧ hashB r.chunks.flatten = e.hash)
    (hnet : net fi.url = some resp)
    (hbad : hashB resp.chunks.flatten ≠ fi.hash) :
    (∀ (emitT : Nat → Bool) (d : Disk) (tf idx ts accB : Nat),
        (update_file hashB net emitT d fi tf idx ts accB).result =
          .error ("Hash mismatch for downloaded file: " ++ fi.path ++ ". Expected " ++
            fi.hash ++ ", got " ++ hashB resp.chunks.flatten)) ∧
      (download_all_files hashB net emitOr disk (pre ++ fi :: post)).result =
        .error ("Failed to download " ++ fi.path ++ ": " ++
          ("Hash mismatch for downloaded file: " ++ fi.path ++ ". Expected " ++ fi.hash ++
            ", got " ++ hashB resp.chunks.flatten)) ∧
      (download_all_files hashB net emitOr disk (pre ++ fi :: post)).fetches =
        pre.length + 1 ∧
      (download_all_files hashB net emitOr disk (pre ++ fi :: post)).disk =
        writeAll net disk (pre ++ [fi]) := by
  have hlen0 : ¬ (pre ++ fi :: post).length = 0 := by simp
  have hd : download_all_files hashB net emitOr disk (pre ++ fi :: post) =
      downloadLoop hashB net emitOr (pre ++ fi :: post).length
        (((pre ++ fi :: post).map FileInfo.size).sum) (pre ++ fi :: post) 0 0 disk := by
    rw [download_all_files, if_neg hlen0]
  have habort := downloadLoop_abort hashB net emitOr (pre ++ fi :: post).length
    (((pre ++ fi :: post).map FileInfo.size).sum) pre fi post 0 0 disk resp hgood hnet hbad
  refine ⟨?_, ?_, ?_, ?_⟩
  · intro emitT d tf idx ts accB
    rw [update_file_mismatch hashB net emitT d fi tf idx ts accB resp hnet hbad]
  · rw [hd]
    exact habort.1
  · rw [hd]
    exact habort.2.1
  · rw [hd]
    exact habort.2.2

/-- C4 witness: a three-file batch whose second file's body re-hashes to a
wrong digest aborts after two network requests with the second file named,
leaving the first file's body (and the corrupt second body) on disk. -/
theorem C4_hash_mismatch_aborts_witness :
    (∀ e ∈ [(⟨"a", "good", 1, "ua"⟩ : FileInfo)], ∃ r,
        (fun u => if u = "ua" then some (⟨none, [[1]]⟩ : NetResponse)
          else if u = "ub" then some ⟨none, [[2]]⟩ else none) e.url = some r ∧
        (fun l => if l = [1] then "good" else "bad") r.chunks.flatten = e.hash) ∧
      ((fun u => if u = "ua" then some (⟨none, [[1]]⟩ : NetResponse)
          else if u = "ub" then some ⟨none, [[2]]⟩ else none)
        (⟨"b", "good", 1, "ub"⟩ : FileInfo).url = some ⟨none, [[2]]⟩) ∧
      ((fun l => if l = [1] then "good" else "bad")
        (⟨none, [[2]]⟩ : NetResponse).chunks.flatten ≠ (⟨"b", "good", 1, "ub"⟩ : FileInfo).hash) ∧
      ((∀ (emitT : Nat → Bool) (d : Disk) (tf idx ts accB : Nat),
          (update_file (fun l => if l = [1] then "good" else "bad")
            (fun u => if u = "ua" then some (⟨none, [[1]]⟩ : NetResponse)
              else if u = "ub" then some ⟨none, [[2]]⟩ else none)
            emitT d (⟨"b", "good", 1, "ub"⟩ : FileInfo) tf idx ts accB).result =
            .error ("Hash mismatch for downloaded file: " ++ (⟨"b", "good", 1, "ub"⟩ : FileInfo).path ++
              ". Expected " ++ (⟨"b", "good", 1, "ub"⟩ : FileInfo).hash ++ ", got " ++
              (fun l => if l = [1] then "good" else "bad") (⟨none, [[2]]⟩ : NetResponse).chunks.flatten)) ∧
        (download_all_files (fun l => if l = [1] then "good" else "bad")
            (fun u => if u = "ua" then some (⟨none, [[1]]⟩ : NetResponse)
              else if u = "ub" then some ⟨none, [[2]]⟩ else none)
            (fun _ _ => true) (fun _ => none)
            ([(⟨"a", "good", 1, "ua"⟩ : FileInfo)] ++ (⟨"b", "good", 1, "ub"⟩ : FileInfo) ::
              [(⟨"c", "good", 1, "uc"⟩ : FileInfo)])).result =
          .error ("Failed to download " ++ (⟨"b", "good", 1, "ub"⟩ : FileInfo).path ++ ": " ++
            ("Hash mismatch for downloaded file: " ++ (⟨"b", "good", 1, "ub"⟩ : FileInfo).path ++
              ". Expected " ++ (⟨"b", "good", 1, "ub"⟩ : FileInfo).hash ++ ", got " ++
              (fun l => if l = [1] then "good" else "bad") (⟨none, [[2]]⟩ : NetResponse).chunks.flatten)) ∧
        (download_all_files (fun l => if l = [1] then "good" else "bad")
            (fun u => if u = "ua" then some (⟨none, [[1]]⟩ : NetResponse)
              else if u = "ub" then some ⟨none, [[2]]⟩ else none)
            (fun _ _ => true) (fun _ => none)
            ([(⟨"a", "good", 1, "ua"⟩ : FileInfo)] ++ (⟨"b", "good", 1, "ub"⟩ : FileInfo) ::
              [(⟨"c", "good", 1, "uc"⟩ : FileInfo)])).fetches =
          [(⟨"a", "good", 1, "ua"⟩ : FileInfo)].length + 1 ∧
        (download_all_files (fun l => if l = [1] then "good" else "bad")
            (fun u => if u = "ua" then some (⟨none, [[1]]⟩ : NetResponse)
              else if u = "ub" then some ⟨none, [[2]]⟩ else none)
            (fun _ _ => true) (fun _ => none)
            ([(⟨"a", "good", 1, "ua"⟩ : FileInfo)] ++ (⟨"b", "good", 1, "ub"⟩ : FileInfo) ::
              [(⟨"c", "good", 1, "uc"⟩ : FileInfo)])).disk =
          writeAll (fun u => if u = "ua" then some (⟨none, [[1]]⟩ : NetResponse)
              else if u = "ub" then some ⟨none, [[2]]⟩ else none) (fun _ => none)
            ([(⟨"a", "good", 1, "ua"⟩ : FileInfo)] ++ [(⟨"b", "good", 1, "ub"⟩ : FileInfo)])) := by
  have hgood : ∀ e ∈ [(⟨"a", "good", 1, "ua"⟩ : FileInfo)], ∃ r,
      (fun u => if u = "ua" then some (⟨none, [[1]]⟩ : NetResponse)
        else if u = "ub" then some ⟨none, [[2]]⟩ else none) e.url = some r ∧
      (fun l => if l = [1] then "good" else "bad") r.chunks.flatten = e.hash := by
    intro e he
    rw [List.mem_singleton] at he
    subst he
    exact ⟨⟨none, [[1]]⟩, rfl, by decide⟩
  have hnet : (fun u => if u = "ua" then some (⟨none, [[1]]⟩ : NetResponse)
      else if u = "ub" then some ⟨none, [[2]]⟩ else none)
      (⟨"b", "good", 1, "ub"⟩ : FileInfo).url = some ⟨none, [[2]]⟩ := by decide
  have hbad : (fun l => if l = [1] then "good" else "bad")
      (⟨none, [[2]]⟩ : NetResponse).chunks.flatten ≠ (⟨"b", "good", 1, "ub"⟩ : FileInfo).hash := by
    decide
  exact ⟨hgood, hnet, hbad,
    C4_hash_mismatch_aborts _ _ _ _ _ _ _ _ hgood hnet hbad⟩

/-- C7 counterexample: a one-file batch of declared total size 1 whose server
body is 3 bytes long emits a `download_progress` event whose aggregate
`downloaded_bytes` (3) exceeds the batch's total declared size (1): the code
counts actual received bytes and never caps them at the declared size. -/
theorem C7_counterexample_exceeds_total :
    ∃ x ∈ progressValues (download_all_files (fun _ => "h")
        (fun _ => some ⟨none, [[9, 9, 9]]⟩) (fun _ _ => true) (fun _ => none)
        [(⟨"a", "h", 1, "u"⟩ : FileInfo)]).events,
      (([(⟨"a", "h", 1, "u"⟩ : FileInfo)]).map FileInfo.size).sum < x := by
  decide

/-- C7 (amended): across every batch and every firing pattern of the time
throttle, the aggregate `downloaded_bytes` values of successive
`download_progress` events are non-decreasing, unconditionally; and whenever
each fetched body is no longer than its entry's declared size, every reported
value is at most the batch's total declared size T. -/
theorem C7_progress_monotone_bounded (hashB : List Nat → String) (net : Net)
    (emitOr : Nat → Nat → Bool) (disk : Disk) (files : List FileInfo) :
    List.Chain' (· ≤ ·)
        (progressValues (download_all_files hashB net emitOr disk files).events) ∧
      ((∀ e ∈ files, ∀ resp, net e.url = some resp →
          resp.chunks.flatten.length ≤ e.size) →
        ∀ x ∈ progressValues (download_all_files hashB net emitOr disk files).events,
          x ≤ (files.map FileInfo.size).sum) := by
  by_cases h0 : files.length = 0
  · rw [download_all_files, if_pos h0]
    simp [progressValues]
  · rw [download_all_files, if_neg h0]
    obtain ⟨hch, hlb, hub⟩ := downloadLoop_progress hashB net emitOr files.length
      ((files.map FileInfo.size).sum) files 0 0 disk
    refine ⟨hch, fun hlen x hx => ?_⟩
    have := hub hlen x hx
    omega

/-- C7 witness: the amended theorem applied to a two-chunk body of exactly
the declared size. -/
theorem C7_progress_monotone_bounded_witness :
    (∀ e ∈ [(⟨"a", "h", 2, "u"⟩ : FileInfo)], ∀ resp : NetResponse,
        (fun _ => some (⟨none, [[1], [2]]⟩ : NetResponse)) e.url = some resp →
          resp.chunks.flatten.length ≤ e.size) ∧
      (List.Chain' (· ≤ ·)
          (progressValues (download_all_files (fun _ => "h")
            (fun _ => some ⟨none, [[1], [2]]⟩) (fun _ _ => true) (fun _ => none)
            [(⟨"a", "h", 2, "u"⟩ : FileInfo)]).events) ∧
        ∀ x ∈ progressValues (download_all_files (fun _ => "h")
            (fun _ => some ⟨none, [[1], [2]]⟩) (fun _ _ => true) (fun _ => none)
            [(⟨"a", "h", 2, "u"⟩ : FileInfo)]).events,
          x ≤ (([(⟨"a", "h", 2, "u"⟩ : FileInfo)]).map FileInfo.size).sum) := by
  have hlen : ∀ e ∈ [(⟨"a", "h", 2, "u"⟩ : FileInfo)], ∀ resp : NetResponse,
      (fun _ => some (⟨none, [[1], [2]]⟩ : NetResponse)) e.url = some resp →
        resp.chunks.flatten.length ≤ e.size := by
    intro e he resp hr
    rw [List.mem_singleton] at he
    subst he
    rw [← Option.some.inj hr]
    decide
  exact ⟨hlen, (C7_progress_monotone_bounded (fun _ => "h")
    (fun _ => some ⟨none, [[1], [2]]⟩) (fun _ _ => true) (fun _ => none)
    [(⟨"a", "h", 2, "u"⟩ : FileInfo)]).1,
    (C7_progress_monotone_bounded (fun _ => "h")
      (fun _ => some ⟨none, [[1], [2]]⟩) (fun _ _ => true) (fun _ => none)
      [(⟨"a", "h", 2, "u"⟩ : FileInfo)]).2 hlen⟩

/-- C10: on the empty list of required entries, `download_all_files` returns
`Ok` with the empty byte-count sequence, emits exactly the
`download_complete` event, performs no network request (zero `update_file`
invocations) and leaves the disk untouched. -/
theorem C10_empty_batch (hashB : List Nat → String) (net : Net)
    (emitOr : Nat → Nat → Bool) (disk : Disk) :
    (download_all_files hashB net emitOr disk []).result = .ok [] ∧
      (download_all_files hashB net emitOr disk []).events = [Event.download_complete] ∧
      (download_all_files hashB net emitOr disk []).fetches = 0 ∧
      (download_all_files hashB net emitOr disk []).disk = disk :=
  ⟨rfl, rfl, rfl, rfl⟩

/-! ### Claim theorems: ignore filter -/

/-- C8: `is_ignored` returns false when the path cannot be made relative to
the root; otherwise it returns true exactly when the separator-normalized
relative string equals a pattern with the path's parent equal to the root, or
the relative string starts with some pattern of the set; in particular the
root-relative path `Data/Logs/x` under root `g` is not ignored by the
pattern `Logs`. -/
theorem C8_is_ignored_spec (p root : List (List Char)) (ign : List (List Char)) :
    (stripRoot root p = none → is_ignored p root ign = false) ∧
      (∀ rel, stripRoot root p = some rel →
        (is_ignored p root ign = true ↔
          (joinSlash rel ∈ ign ∧ pathParent p = some root) ∨
            ∃ pat ∈ ign, pat.isPrefixOf (joinSlash rel) = true)) ∧
      is_ignored [['g'], ['D','a','t','a'], ['L','o','g','s'], ['x']] [['g']]
        [['L','o','g','s']] = false := by
  refine ⟨?_, ?_, by decide⟩
  · intro h
    simp [is_ignored, h]
  · intro rel hrel
    constructor
    · intro h
      simp only [is_ignored, hrel] at h
      split at h
      case isTrue hc =>
        refine Or.inl ⟨?_, hc.1.2⟩
        rcases hc.2 with hm | hm
        · exact hm
        · exact hm.2
      case isFalse hc =>
        right
        simpa [List.any_eq_true] using h
    · intro h
      simp only [is_ignored, hrel]
      split
      case isTrue hc => rfl
      case isFalse hc =>
        rw [List.any_eq_true]
        rcases h with ⟨hmem, hpar⟩ | ⟨pat, hpat, hpre⟩
        · exact ⟨joinSlash rel, hmem, List.isPrefixOf_iff_prefix.mpr (List.prefix_refl _)⟩
        · exact ⟨pat, hpat, hpre⟩

/-! ### Lemmas for the content hasher -/

theorem readChunks_flatten (l : List Nat) : (readChunks l).flatten = l := by
  induction l using readChunks.induct with
  | case1 => simp [readChunks]
  | case2 l h ih =>
    rw [readChunks, dif_neg h]
    simp [ih]

theorem foldl_append_flatten (L : List (List Nat)) :
    ∀ acc : List Nat, List.foldl (fun a b => a ++ b) acc L = acc ++ L.flatten := by
  induction L with
  | nil => intro acc; simp
  | cons c rest ih => intro acc; simp [ih, List.append_assoc]

theorem readChunks_stream (l : List Nat) :
    List.foldl (fun acc ch => acc ++ ch) [] (readChunks l) = l := by
  rw [foldl_append_flatten, List.nil_append, readChunks_flatten]

theorem readChunks_size (l : List Nat) : ∀ c ∈ readChunks l, c.length ≤ 8192 := by
  induction l using readChunks.induct with
  | case1 => intro c hc; simp [readChunks] at hc
  | case2 l h ih =>
    intro c hc
    rw [readChunks, dif_neg h] at hc
    rcases List.mem_cons.mp hc with rfl | hc
    · simp [List.length_take]
    · exact ih c hc

theorem hexDigit_is_hex : ∀ n, n < 16 →
    ('0' ≤ hexDigit n ∧ hexDigit n ≤ '9') ∨ ('a' ≤ hexDigit n ∧ hexDigit n ≤ 'f') := by
  decide

theorem byteHex_is_hex (b : Nat) :
    ∀ ch ∈ byteHex b, ('0' ≤ ch ∧ ch ≤ '9') ∨ ('a' ≤ ch ∧ ch ≤ 'f') := by
  intro ch hch
  rcases List.mem_cons.mp hch with rfl | hch
  · exact hexDigit_is_hex _ (Nat.mod_lt _ (by omega))
  · rcases List.mem_cons.mp hch with rfl | hch
    · exact hexDigit_is_hex _ (Nat.mod_lt _ (by omega))
    · cases hch

theorem hexLower_chars (bs : List Nat) :
    ∀ ch ∈ (hexLower bs).data,
      ('0' ≤ ch ∧ ch ≤ '9') ∨ ('a' ≤ ch ∧ ch ≤ 'f') := by
  intro ch hch
  have hch' : ch ∈ bs.flatMap byteHex := hch
  obtain ⟨b, hb, hmem⟩ := List.mem_flatMap.mp hch'
  exact byteHex_is_hex b ch hmem

theorem hexLower_length (bs : List Nat) : (hexLower bs).length = 2 * bs.length := by
  show (bs.flatMap byteHex).length = 2 * bs.length
  induction bs with
  | nil => rfl
  | cons b rest ih =>
    simp only [List.flatMap_cons, List.length_append, ih, byteHex, List.length_cons,
      List.length_nil]
    omega

/-! ### Claim theorem: content hasher -/

/-- C9: `calculate_file_hash` is deterministic and content-only — two files
with identical byte content hash identically regardless of path or store —
and it feeds the digest exactly the file's bytes, split into chunks of at
most 8192 bytes (the fixed 8 KiB read buffer), returning the lowercase hex
encoding of the final digest (two lowercase hex characters per digest byte,
so a 32-byte digest prints as 64 characters). -/
theorem C9_hash_deterministic_content_only (digest : List Nat → List Nat)
    (fs1 fs2 : String → Option (List Nat)) (p1 p2 : String) (bs : List Nat)
    (h1 : fs1 p1 = some bs) (h2 : fs2 p2 = some bs) :
    calculate_file_hash digest fs1 p1 = calculate_file_hash digest fs2 p2 ∧
      List.foldl (fun acc ch => acc ++ ch) [] (readChunks bs) = bs ∧
      (∀ c ∈ readChunks bs, c.length ≤ 8192) ∧
      calculate_file_hash digest fs1 p1 = some (hexLower (digest bs)) ∧
      (hexLower (digest bs)).length = 2 * (digest bs).length ∧
      ∀ ch ∈ (hexLower (digest bs)).data,
        ('0' ≤ ch ∧ ch ≤ '9') ∨ ('a' ≤ ch ∧ ch ≤ 'f') := by
  refine ⟨?_, readChunks_stream bs, readChunks_size bs, ?_, hexLower_length _, hexLower_chars _⟩
  · simp [calculate_file_hash, h1, h2]
  · simp [calculate_file_hash, h1, readChunks_stream bs]

/-- C9 witness: the theorem applied to a concrete store, two paths holding
the same three-byte content, and a concrete two-byte digest function. -/
theorem C9_hash_deterministic_content_only_witness :
    ((fun q => if q = "x" then some [1, 2, 3] else some [9]) "x" = some [1, 2, 3]) ∧
      ((fun _ : String => some [1, 2, 3]) "y" = some [1, 2, 3]) ∧
      (calculate_file_hash (fun _ => [0, 255])
          (fun q => if q = "x" then some [1, 2, 3] else some [9]) "x" =
        calculate_file_hash (fun _ => [0, 255]) (fun _ => some [1, 2, 3]) "y" ∧
        List.foldl (fun acc ch => acc ++ ch) [] (readChunks [1, 2, 3]) = [1, 2, 3] ∧
        (∀ c ∈ readChunks [1, 2, 3], c.length ≤ 8192) ∧
        calculate_file_hash (fun _ => [0, 255])
          (fun q => if q = "x" then some [1, 2, 3] else some [9]) "x" =
          some (hexLower ((fun _ : List Nat => [0, 255]) [1, 2, 3])) ∧
        (hexLower ((fun _ : List Nat => [0, 255]) [1, 2, 3])).length =
          2 * ((fun _ : List Nat => [0, 255]) [1, 2, 3]).length ∧
        ∀ ch ∈ (hexLower ((fun _ : List Nat => [0, 255]) [1, 2, 3])).data,
          ('0' ≤ ch ∧ ch ≤ '9') ∨ ('a' ≤ ch ∧ ch ≤ 'f')) := by
  refine ⟨by decide, rfl, ?_⟩
  exact C9_hash_deterministic_content_only (fun _ => [0, 255]) _ _ "x" "y" [1, 2, 3]
    (by decide) rfl

/-- C8 witness: the characterization applied to the path `g/Logs/t` under
root `g` with the ignore pattern `Logs`. -/
theorem C8_is_ignored_spec_witness :
    (stripRoot [['g']] [['g'], ['L','o','g','s'], ['t']] =
        some [['L','o','g','s'], ['t']]) ∧
      (is_ignored [['g'], ['L','o','g','s'], ['t']] [['g']] [['L','o','g','s']] = true ↔
        (joinSlash [['L','o','g','s'], ['t']] ∈ [['L','o','g','s']] ∧
            pathParent [['g'], ['L','o','g','s'], ['t']] = some [['g']]) ∨
          ∃ pat ∈ [['L','o','g','s']],
            pat.isPrefixOf (joinSlash [['L','o','g','s'], ['t']]) = true) :=
  ⟨by decide, (C8_is_ignored_spec [['g'], ['L','o','g','s'], ['t']] [['g']]
    [['L','o','g','s']]).2.1 [['L','o','g','s'], ['t']] (by decide)⟩
